import Mathlib

/-!
# Smart_thread: a shallow embedding of the `wsp::details` thread pool

The development follows the headers under `include/workspace`:

* `utility.h`    : `sz_t`, the priority tags, `futures<T>`
* `taskqueue.h`  : `taskqueue<T>`
* `workbranch.h` : `workbranch` (worker table, counters, submit shims, `mission`, `rexec`)

Modelling conventions.

* A mutex-protected critical section is one atomic transition on the shared record.
* Condition variables carry no state: a blocked thread may be resumed at any time
  (spurious wake-ups are permitted by `std::condition_variable`), so a notification
  only enables a step that the model already allows.
* `sz_t` values live in `[0, 2^64)`; `++` and `--` wrap.
* `std::map<worker::id, worker>` is represented by its key set: the mapped value is the
  handle of the very thread the key names.
* Exceptions are values of `Exn`; a C++ call that may throw returns `Except Exn _`
  together with the state it leaves behind.
-/

namespace wsp

/-! ## utility.h -/

/-- Number of values of `sz_t` (`size_t`, 64 bit). -/
def SZ_MOD : Nat := 2 ^ 64

/-- The `++` operator on `sz_t`. -/
def sz_inc (n : Nat) : Nat := (n + 1) % SZ_MOD

/-- The `--` operator on `sz_t`: zero wraps to the largest value. -/
def sz_dec (n : Nat) : Nat := if n = 0 then SZ_MOD - 1 else n - 1

/-- A thrown C++ object: either derived from `std::exception` (it has `what()`),
or anything else (only `catch (...)` sees it). -/
inductive Exn where
  | std_exception (what : String)
  | other (code : Nat)
deriving DecidableEq

/-- The `std::future_error` raised by `std::promise::set_value` / `set_exception`
on a promise that already holds a result. -/
def promise_already_satisfied : Exn :=
  .std_exception "std::future_error: Promise already satisfied"

/-- The `std::future_error` raised when a future or promise has no shared state. -/
def no_state : Exn :=
  .std_exception "std::future_error: No associated state"

/-- The `std::runtime_error` thrown by `del_worker`. -/
def no_worker_error : Exn :=
  .std_exception "workspace: No worker in workbranch to delete"

/-- The tags `normal` and `urgent` of `utility.h`. -/
inductive Priority where
  | normal
  | urgent
deriving DecidableEq

/-- A `std::future<T>` as seen by `get()`: it refers to a shared state that resolves to a
value or to a stored exception, or it refers to nothing (`valid()` is false). -/
inductive future (T : Type) where
  | ready (result : Except Exn T)
  | invalid

/-- The member `std::future<T>::get`: hands out the stored value or rethrows the stored
exception, and leaves the future without shared state; called on a future without shared
state it throws `std::future_error` (no_state), as libstdc++ does. -/
def future.get {T : Type} : future T → Except Exn T × future T
  | .ready result => (result, .invalid)
  | .invalid => (.error no_state, .invalid)

/-- The class `futures<T>`: a deque of futures. -/
structure futures (T : Type) where
  futs : List (future T)

/-- The member `futures::size`. -/
def futures.size {T : Type} (fs : futures T) : Nat := fs.futs.length

/-- The member `futures::add_back`: `futs.emplace_back`. -/
def futures.add_back {T : Type} (fs : futures T) (fut : future T) : futures T :=
  ⟨fs.futs ++ [fut]⟩

/-- The member `futures::add_front`: `futs.emplace_front`. -/
def futures.add_front {T : Type} (fs : futures T) (fut : future T) : futures T :=
  ⟨fut :: fs.futs⟩

/-- The range-for of `futures::get`: `res` is the vector built so far; on the first
`each.get()` that throws, the loop is left and the remaining futures are untouched. -/
def futures.get_loop {T : Type} : List (future T) → List T → Except Exn (List T) × List (future T)
  | [], res => (.ok res, [])
  | each :: rest, res =>
    match each.get with
    | (.ok v, each1) =>
      let r := futures.get_loop rest (res ++ [v])
      (r.1, each1 :: r.2)
    | (.error e, each1) => (.error e, each1 :: rest)

/-- The member `futures::get`. -/
def futures.get {T : Type} (fs : futures T) : Except Exn (List T) × futures T :=
  let r := futures.get_loop fs.futs []
  (r.1, ⟨r.2⟩)

/-! ## taskqueue.h -/

/-- The class `taskqueue<T>`: the deque `q` (every member function holds `tq_lok`). -/
structure taskqueue (T : Type) where
  q : List T

/-- The member `taskqueue::push_back`: `q.emplace_back(v)`. -/
def taskqueue.push_back {T : Type} (tq : taskqueue T) (v : T) : taskqueue T :=
  ⟨tq.q ++ [v]⟩

/-- The member `taskqueue::push_front`: `q.emplace_front(v)`. -/
def taskqueue.push_front {T : Type} (tq : taskqueue T) (v : T) : taskqueue T :=
  ⟨v :: tq.q⟩

/-- The member `taskqueue::try_pop(T& tmp)`: returns the flag, the out-parameter after the call and
the queue after the call. -/
def taskqueue.try_pop {T : Type} (tq : taskqueue T) (tmp : T) : Bool × T × taskqueue T :=
  match tq.q with
  | front :: rest => (true, front, ⟨rest⟩)
  | [] => (false, tmp, tq)

/-- The member `taskqueue::length`. -/
def taskqueue.length {T : Type} (tq : taskqueue T) : Nat := tq.q.length

/-- One submission reaching the queue: `push_back` for normal, `push_front` for urgent. -/
def taskqueue.enqueue {T : Type} (tq : taskqueue T) (sub : Priority × T) : taskqueue T :=
  match sub.1 with
  | .normal => tq.push_back sub.2
  | .urgent => tq.push_front sub.2

/-- A sequence of submissions, oldest first, with no pop in between. -/
def taskqueue.enqueue_all {T : Type} (tq : taskqueue T) (subs : List (Priority × T)) :
    taskqueue T :=
  subs.foldl taskqueue.enqueue tq

/-- The first `n` successive `try_pop` calls on the same out-parameter: the list of
(flag, out-parameter) pairs observed after each call, the final out-parameter and queue. -/
def taskqueue.pop_n {T : Type} : Nat → taskqueue T → T → List (Bool × T) × T × taskqueue T
  | 0, tq, tmp => ([], tmp, tq)
  | n + 1, tq, tmp =>
    let r := tq.try_pop tmp
    let rs := taskqueue.pop_n n r.2.2 r.2.1
    ((r.1, r.2.1) :: rs.1, rs.2)

/-- The tasks submitted with a given tag, in submission order. -/
def tagged {T : Type} (p : Priority) (subs : List (Priority × T)) : List T :=
  (subs.filter (fun sub => decide (sub.1 = p))).map Prod.snd

/-! ## workbranch.h: what a task can touch -/

/-- An observable action of a running task. -/
inductive Event where
  | invoked (fn : Nat)
  | set_value (promise : Nat)
  | set_exception (promise : Nat)
  | cerr_exception (worker : Nat) (what : String)
  | cerr_unknown (worker : Nat)
deriving DecidableEq

/-- Everything outside the pool that a task acts on: the state the user functions work on,
the shared states of the promises allocated by `std::make_shared<std::promise<R>>`
(`none` while unset), and the record of observable actions. -/
structure World (σ ρ : Type) where
  user : σ
  promises : List (Option (Except Exn ρ))
  events : List Event

/-- A callable handed to `submit`: `fn` names it in the event record, `body` is what a call
does to the user state and whether it returns or throws. -/
structure UserFn (σ α : Type) where
  fn : Nat
  body : σ → Except Exn α × σ

/-- The element type of the task queue, `std::function<void()>`; the first argument is
`std::this_thread::get_id()` of the thread that calls it. -/
abbrev Task (σ ρ : Type) := Nat → World σ ρ → Except Exn Unit × World σ ρ

/-- A default-constructed `std::function<void()>`: calling it throws. -/
def empty_function {σ ρ : Type} : Task σ ρ :=
  fun _ w => (.error (.std_exception "bad_function_call"), w)

/-- The call `task()` of a user callable. -/
def invoke {σ ρ α : Type} (f : UserFn σ α) (w : World σ ρ) : Except Exn α × World σ ρ :=
  let r := f.body w.user
  (r.1, { w with user := r.2, events := w.events ++ [Event.invoked f.fn] })

/-- A line written to `std::cerr`. -/
def cerr {σ ρ : Type} (w : World σ ρ) (line : Event) : World σ ρ :=
  { w with events := w.events ++ [line] }

/-- The line a handler writes for a caught exception: `catch (const std::exception& ex)`
prints `ex.what()`, `catch (...)` prints a fixed text; both print the thread id. -/
def cerr_line (tid : Nat) : Exn → Event
  | .std_exception what => .cerr_exception tid what
  | .other _ => .cerr_unknown tid

/-- The pair of handlers `catch (const std::exception& ex)` / `catch (...)` that every shim
ends with, applied to the outcome of the guarded block. -/
def catch_log {σ ρ : Type} (tid : Nat) (r : Except Exn Unit × World σ ρ) :
    Except Exn Unit × World σ ρ :=
  match r with
  | (.ok _, w) => (.ok (), w)
  | (.error e, w) => (.ok (), cerr w (cerr_line tid e))

/-- Storing into the shared state of promise `p` (`set_value` and `set_exception`). -/
def promise_store {σ ρ : Type} (p : Nat) (result : Except Exn ρ) (ev : Event) (w : World σ ρ) :
    Except Exn Unit × World σ ρ :=
  match w.promises[p]? with
  | some none =>
    (.ok (), { w with promises := w.promises.set p (some result), events := w.events ++ [ev] })
  | some (some _) => (.error promise_already_satisfied, w)
  | none => (.error no_state, w)

/-- The call `task_promise->set_value(v)`. -/
def set_value {σ ρ : Type} (p : Nat) (v : ρ) (w : World σ ρ) : Except Exn Unit × World σ ρ :=
  promise_store p (.ok v) (.set_value p) w

/-- The call `task_promise->set_exception(e)`. -/
def set_exception {σ ρ : Type} (p : Nat) (e : Exn) (w : World σ ρ) :
    Except Exn Unit × World σ ρ :=
  promise_store p (.error e) (.set_exception p) w

/-- What `get()` on the future of promise `p` yields: `none` while the promise is unset
(the call blocks), otherwise the value, or the stored exception rethrown. -/
def future_get {σ ρ : Type} (p : Nat) (w : World σ ρ) : Option (Except Exn ρ) :=
  match w.promises[p]? with
  | some (some result) => some result
  | _ => none

/-- The member `workbranch::rexec`: the one-argument overload for the last callable, the
variadic one otherwise. An exception leaves the recursion at once. -/
def rexec {σ ρ : Type} : UserFn σ Unit → List (UserFn σ Unit) → World σ ρ →
    Except Exn Unit × World σ ρ
  | func, [], w => invoke func w
  | func, g :: funcs, w =>
    match invoke func w with
    | (.ok _, w1) => rexec g funcs w1
    | (.error e, w1) => (.error e, w1)

/-- The closure queued by `submit` for a void callable (normal and urgent). -/
def void_shim {σ ρ : Type} (task : UserFn σ Unit) : Task σ ρ :=
  fun tid w => catch_log tid (invoke task w)

/-- The closure queued by `submit<sequence>`. -/
def sequence_shim {σ ρ : Type} (task : UserFn σ Unit) (tasks : List (UserFn σ Unit)) :
    Task σ ρ :=
  fun tid w => catch_log tid (rexec task tasks w)

/-- The handler `catch (...)` of the value shim: store `std::current_exception()`; a
failure of that store is logged. -/
def value_handler {σ ρ : Type} (p : Nat) (tid : Nat) (e : Exn) (w : World σ ρ) :
    Except Exn Unit × World σ ρ :=
  catch_log tid (set_exception p e w)

/-- The closure queued by `submit` for a value-returning callable (normal and urgent);
`p` is the promise captured through `task_promise`. -/
def value_shim {σ ρ : Type} (exec : UserFn σ ρ) (p : Nat) : Task σ ρ :=
  fun tid w =>
    match invoke exec w with
    | (.ok v, w1) =>
      match set_value p v w1 with
      | (.ok _, w2) => (.ok (), w2)
      | (.error e, w2) => value_handler p tid e w2
    | (.error e, w1) => value_handler p tid e w1

/-! ## workbranch.h: the pool -/

/-- The data members of `workbranch` (the mutex and the condition variables hold no data). -/
structure workbranch (σ ρ : Type) where
  decline : Nat := 0
  task_done_workers : Nat := 0
  is_waiting : Bool := false
  destructing : Bool := false
  workers : Finset Nat := ∅
  tq : taskqueue (Task σ ρ) := ⟨[]⟩

/-- The member `workbranch::add_worker`; `tid` is the id of the thread just created. -/
def workbranch.add_worker {σ ρ : Type} (s : workbranch σ ρ) (tid : Nat) : workbranch σ ρ :=
  { s with workers := insert tid s.workers }

/-- The constructor `workbranch(int wks_n = 1)`; `tid_of i` is the id of the thread
created in round `i` of the loop. -/
def workbranch.create {σ ρ : Type} (wks_n : Int) (tid_of : Nat → Nat) : workbranch σ ρ :=
  (List.range (max wks_n 1).toNat).foldl (fun s i => s.add_worker (tid_of i)) {}

/-- The member `workbranch::del_worker`: the outcome of the call and the members after it. -/
def workbranch.del_worker {σ ρ : Type} (s : workbranch σ ρ) :
    Except Exn Unit × workbranch σ ρ :=
  if s.workers = ∅ then (.error no_worker_error, s)
  else (.ok (), { s with decline := sz_inc s.decline })

/-- The member `workbranch::num_workers`. -/
def workbranch.num_workers {σ ρ : Type} (s : workbranch σ ρ) : Nat := s.workers.card

/-- The member `workbranch::num_tasks`. -/
def workbranch.num_tasks {σ ρ : Type} (s : workbranch σ ρ) : Nat := s.tq.length

/-- The predicate handed to `task_done_cv.wait_for` in `wait_tasks`. -/
def workbranch.wait_pred {σ ρ : Type} (s : workbranch σ ρ) : Bool :=
  decide (s.task_done_workers ≥ s.workers.card)

/-- The member `wait_tasks` up to the point where it starts waiting: `is_waiting = true`. -/
def workbranch.wait_tasks_enter {σ ρ : Type} (s : workbranch σ ρ) : workbranch σ ρ :=
  { s with is_waiting := true }

/-- The two assignments of `wait_tasks` after `wait_for` has returned. -/
def workbranch.wait_tasks_leave {σ ρ : Type} (s : workbranch σ ρ) : workbranch σ ρ :=
  { s with task_done_workers := 0, is_waiting := false }

/-- One round of `wait_for(locker, milliseconds(timeout), pred)` with the lock held, when
`elapsed` milliseconds have passed since the call: `while (!pred()) if (timed out) return
pred(); return true;`. `none` means the caller goes back to sleep; otherwise the result
of `wait_tasks` and the members when it returns. -/
def workbranch.wait_tasks_wake {σ ρ : Type} (s : workbranch σ ρ) (timeout elapsed : Nat) :
    Option (Bool × workbranch σ ρ) :=
  if s.wait_pred then some (true, s.wait_tasks_leave)
  else if elapsed ≥ timeout then some (s.wait_pred, s.wait_tasks_leave)
  else none

/-- The default argument `unsigned timeout = -1`. -/
def default_timeout : Nat := 2 ^ 32 - 1

/-- The destructor up to its wait: `decline = workers.size(); destructing = true`. -/
def workbranch.destruct_enter {σ ρ : Type} (s : workbranch σ ρ) : workbranch σ ρ :=
  { s with decline := s.workers.card, destructing := true }

/-- The predicate of the destructor's `thread_cv.wait`: `!decline`. -/
def workbranch.destruct_pred {σ ρ : Type} (s : workbranch σ ρ) : Bool :=
  decide (s.decline = 0)

/-- The void overload of `submit<normal>`. -/
def workbranch.submit_normal_void {σ ρ : Type} (s : workbranch σ ρ) (task : UserFn σ Unit) :
    workbranch σ ρ :=
  { s with tq := s.tq.push_back (void_shim task) }

/-- The void overload of `submit<urgent>`. -/
def workbranch.submit_urgent_void {σ ρ : Type} (s : workbranch σ ρ) (task : UserFn σ Unit) :
    workbranch σ ρ :=
  { s with tq := s.tq.push_front (void_shim task) }

/-- The overload `submit<sequence>(task, tasks...)`. -/
def workbranch.submit_sequence {σ ρ : Type} (s : workbranch σ ρ) (task : UserFn σ Unit)
    (tasks : List (UserFn σ Unit)) : workbranch σ ρ :=
  { s with tq := s.tq.push_back (sequence_shim task tasks) }

/-- The call `std::make_shared<std::promise<R>>()`: a new, unset shared state and its index. -/
def make_promise {σ ρ : Type} (w : World σ ρ) : Nat × World σ ρ :=
  (w.promises.length, { w with promises := w.promises ++ [none] })

/-- The value-returning overload of `submit<normal>`: the returned future (named by its
promise), the pool and the world after the call. -/
def workbranch.submit_normal_value {σ ρ : Type} (s : workbranch σ ρ) (w : World σ ρ)
    (task : UserFn σ ρ) : Nat × workbranch σ ρ × World σ ρ :=
  let pw := make_promise w
  (pw.1, { s with tq := s.tq.push_back (value_shim task pw.1) }, pw.2)

/-- The value-returning overload of `submit<urgent>`. -/
def workbranch.submit_urgent_value {σ ρ : Type} (s : workbranch σ ρ) (w : World σ ρ)
    (task : UserFn σ ρ) : Nat × workbranch σ ρ × World σ ρ :=
  let pw := make_promise w
  (pw.1, { s with tq := s.tq.push_front (value_shim task pw.1) }, pw.2)

/-! ## workbranch.h: `mission` -/

/-- Where a worker thread stands in `mission`. -/
inductive PC where
  | loop      -- top of `while (true)`, about to read `decline <= 0`
  | popping   -- `decline <= 0` held, about to call `tq.try_pop(task)`
  | running   -- `try_pop` returned true, about to call `task()`
  | elif      -- about to read `decline > 0` of the `else if`
  | retire    -- about to lock and run the double check
  | idle      -- in the last `else`, about to read `is_waiting`
  | park      -- about to lock, count itself and wait on `thread_cv`
  | parked    -- blocked in `thread_cv.wait(locker)`
  | returned  -- `mission` has returned
  | aborted   -- an exception left `task()`: `std::terminate`
deriving DecidableEq

/-- The private state of a worker thread: its control point and its local
`std::function<void()> task`. -/
structure Worker (σ ρ : Type) where
  pc : PC
  task : Task σ ρ

/-- A thread that has just entered `mission`. -/
def Worker.start {σ ρ : Type} : Worker σ ρ := ⟨.loop, empty_function⟩

/-- The critical section of the retire branch:
`if (decline > 0 && decline--) { workers.erase(get_id()); ...; return; }`. -/
def retire_section {σ ρ : Type} (tid : Nat) (k : Worker σ ρ) (s : workbranch σ ρ) :
    Worker σ ρ × workbranch σ ρ :=
  if s.decline > 0 then
    let old := s.decline
    let s1 := { s with decline := sz_dec s.decline }
    if old ≠ 0 then ({ k with pc := .returned }, { s1 with workers := s1.workers.erase tid })
    else ({ k with pc := .loop }, s1)
  else ({ k with pc := .loop }, s)

/-- The critical section of the park branch: `task_done_workers++` (then notify and wait). -/
def park_section {σ ρ : Type} (k : Worker σ ρ) (s : workbranch σ ρ) :
    Worker σ ρ × workbranch σ ρ :=
  ({ k with pc := .parked }, { s with task_done_workers := sz_inc s.task_done_workers })

/-- The call `task()` inside `mission`; an exception that leaves it ends the thread. -/
def run_task {σ ρ : Type} (tid : Nat) (k : Worker σ ρ) (w : World σ ρ) :
    Worker σ ρ × World σ ρ :=
  match k.task tid w with
  | (.ok _, w1) => ({ k with pc := .loop }, w1)
  | (.error _, w1) => ({ k with pc := .aborted }, w1)

/-- One atomic action of thread `tid` inside `mission`: a read of a shared member, a
queue operation, a critical section, or the call of the popped task. A parked thread may
resume at any time (notification or spurious wake-up) and then goes back to the top of
the loop. -/
def mission_step {σ ρ : Type} (tid : Nat) (k : Worker σ ρ) (s : workbranch σ ρ)
    (w : World σ ρ) : Worker σ ρ × workbranch σ ρ × World σ ρ :=
  match k.pc with
  | .loop => if s.decline ≤ 0 then ({ k with pc := .popping }, s, w)
             else ({ k with pc := .elif }, s, w)
  | .popping =>
    let r := s.tq.try_pop k.task
    if r.1 then (⟨.running, r.2.1⟩, { s with tq := r.2.2 }, w)
    else (⟨.elif, r.2.1⟩, { s with tq := r.2.2 }, w)
  | .running => let r := run_task tid k w; (r.1, s, r.2)
  | .elif => if s.decline > 0 then ({ k with pc := .retire }, s, w)
             else ({ k with pc := .idle }, s, w)
  | .retire => let r := retire_section tid k s; (r.1, r.2, w)
  | .idle => if s.is_waiting then ({ k with pc := .park }, s, w)
             else ({ k with pc := .loop }, s, w)
  | .park => let r := park_section k s; (r.1, r.2, w)
  | .parked => ({ k with pc := .loop }, s, w)
  | .returned => (k, s, w)
  | .aborted => (k, s, w)

/-- One pass through the body of `while (true)` in `mission`, run without interference
from other threads; the pass ends back at the top of the loop, parked, returned or
aborted. -/
def mission_iteration {σ ρ : Type} (tid : Nat) (k : Worker σ ρ) (s : workbranch σ ρ)
    (w : World σ ρ) : Worker σ ρ × workbranch σ ρ × World σ ρ :=
  if s.decline ≤ 0 then
    let r := s.tq.try_pop k.task
    if r.1 then
      let t := run_task tid ⟨.running, r.2.1⟩ w
      (t.1, { s with tq := r.2.2 }, t.2)
    else if s.decline > 0 then
      let c := retire_section tid ⟨.retire, r.2.1⟩ { s with tq := r.2.2 }
      (c.1, c.2, w)
    else if s.is_waiting then
      let c := park_section ⟨.park, r.2.1⟩ { s with tq := r.2.2 }
      (c.1, c.2, w)
    else (⟨.loop, r.2.1⟩, { s with tq := r.2.2 }, w)
  else if s.decline > 0 then
    let c := retire_section tid k s
    (c.1, c.2, w)
  else if s.is_waiting then
    let c := park_section k s
    (c.1, c.2, w)
  else ({ k with pc := .loop }, s, w)

/-- Repeated `mission_step` of one thread with nothing else running in between. -/
def mission_steps {σ ρ : Type} (tid : Nat) : Nat → Worker σ ρ → workbranch σ ρ → World σ ρ →
    Worker σ ρ × workbranch σ ρ × World σ ρ
  | 0, k, s, w => (k, s, w)
  | n + 1, k, s, w =>
    let r := mission_step tid k s w
    mission_steps tid n r.1 r.2.1 r.2.2

/-- An interleaving of worker threads: each entry names the thread that takes the next
atomic action and the private state it is in. Only a thread registered in the worker table
is running `mission`. The third component collects the ids of the threads that returned. -/
def worker_steps {σ ρ : Type} :
    List (Nat × Worker σ ρ) → workbranch σ ρ → World σ ρ → List Nat →
    workbranch σ ρ × World σ ρ × List Nat
  | [], s, w, gone => (s, w, gone)
  | (tid, k) :: rest, s, w, gone =>
    if tid ∈ s.workers then
      let r := mission_step tid k s w
      worker_steps rest r.2.1 r.2.2
        (if r.1.pc = .returned ∧ k.pc = .retire then gone ++ [tid] else gone)
    else worker_steps rest s w gone

/-- One atomic action of a worker as it happened: the private state before it, the pool and
the world the thread found, and what `mission_step` made of them. -/
structure Action (σ ρ : Type) where
  before : Worker σ ρ
  pool : workbranch σ ρ
  world : World σ ρ
  after : Worker σ ρ × workbranch σ ρ × World σ ρ

/-- The control points at which a pass through the loop body is over: back at the top of
the loop, parked, returned or aborted. -/
def PC.ends_pass : PC → Bool
  | .loop => true
  | .parked => true
  | .returned => true
  | .aborted => true
  | _ => false

/-- The control points of the two `else` branches of the loop body. -/
def PC.no_task : PC → Bool
  | .elif => true
  | .retire => true
  | .idle => true
  | .park => true
  | _ => false

/-- One pass of thread `tid` through the body of `while (true)` while other threads run:
`envs` lists the pool and the world that the thread finds at each of its successive atomic
actions (anything may have happened to them in between). The pass is over as soon as an
action leaves the thread at a control point of `PC.ends_pass`. -/
def mission_pass {σ ρ : Type} (tid : Nat) :
    Worker σ ρ → List (workbranch σ ρ × World σ ρ) → List (Action σ ρ)
  | _, [] => []
  | k, (s, w) :: rest =>
    let r := mission_step tid k s w
    ⟨k, s, w, r⟩ :: (if r.1.pc.ends_pass then [] else mission_pass tid r.1 rest)

/-! ## Vocabulary of the statements about `submit<sequence>` -/

/-- The user state after the callables of `fs` have been called one after the other. -/
def state_after {σ α : Type} (fs : List (UserFn σ α)) (u : σ) : σ :=
  fs.foldl (fun v f => (f.body v).2) u

/-- Called one after the other from the user state `u`, every callable of `fs` returns
normally. -/
def all_return {σ : Type} : List (UserFn σ Unit) → σ → Prop
  | [], _ => True
  | f :: fs, u => (f.body u).1 = .ok () ∧ all_return fs (f.body u).2

/-- The invocation events of the callables of `fs`, in order. -/
def invocations {σ α : Type} (fs : List (UserFn σ α)) : List Event :=
  fs.map (fun f => Event.invoked f.fn)

/-! ## Concrete inputs used to exercise the definitions -/

/-- A user function on a counter: adds one and returns normally. -/
def bump (fn : Nat) : UserFn Nat Unit := ⟨fn, fun u => (.ok (), u + 1)⟩

/-- A user function on a counter: adds one, then throws a `std::exception`. -/
def thrower (fn : Nat) (what : String) : UserFn Nat Unit :=
  ⟨fn, fun u => (.error (.std_exception what), u + 1)⟩

/-- A value-returning user function: returns the counter and adds one to it. -/
def reader (fn : Nat) : UserFn Nat Nat := ⟨fn, fun u => (.ok u, u + 1)⟩

/-- The world before anything ran: counter 0, no promise, no event. -/
def world0 : World Nat Nat := ⟨0, [], []⟩

/-- The pool built by `workbranch br(1)`; its worker thread has id 100. -/
def one_worker_pool : workbranch Nat Nat := workbranch.create 1 (fun i => i + 100)

/-- The pool after `workbranch br(1); br.submit(task); br.del_worker();`, before the worker
thread 100 has taken a step: one queued task and one pending removal. -/
def declining_pool : workbranch Nat Nat :=
  (one_worker_pool.submit_normal_void (bump 7)).del_worker.2

/-- The pool after `workbranch br(2); br.submit(task);` and three calls of
`br.del_worker()`, before the worker threads 1 and 2 have taken a step. -/
def two_worker_pool : workbranch Nat Nat :=
  (((((workbranch.create 2 (fun i => i + 1)).submit_normal_void (bump 7)).del_worker.2
    ).del_worker.2).del_worker.2)

/-- The same pool after `br.del_worker()` and one pass of thread 100 through its loop. -/
def retired_pool : workbranch Nat Nat :=
  (mission_iteration 100 Worker.start one_worker_pool.del_worker.2 world0).2.1

/-- The same pool after a following `br.submit(task)`. -/
def abandoned_task_pool : workbranch Nat Nat := retired_pool.submit_normal_void (bump 7)

/-- What holds of the pool `s` at every moment of the shutdown handshake of a pool whose
worker table was `table` when the destructor started; `gone` lists the workers that
have returned since. -/
def shutdown_inv {σ ρ : Type} (table : Finset Nat) (s : workbranch σ ρ) (gone : List Nat) :
    Prop :=
  s.destructing = true ∧ s.decline = s.workers.card ∧ s.decline + gone.length = table.card ∧
  gone.Nodup ∧ (∀ t, t ∈ gone → t ∉ s.workers) ∧ (∀ t, t ∈ table ↔ (t ∈ s.workers ∨ t ∈ gone))

/-- Thread 100 of `one_worker_pool` finds `decline <= 0`, fails to pop from the empty queue,
finds `decline > 0` false and stands before the read of `is_waiting`. -/
def idle_worker_trace : Worker Nat Nat × workbranch Nat Nat × World Nat Nat :=
  mission_steps 100 3 Worker.start one_worker_pool world0

/-- The pool of `idle_worker_trace` after `br.submit(task)` and the entry of
`br.wait_tasks()` on the caller's thread. -/
def racing_pool : workbranch Nat Nat :=
  (idle_worker_trace.2.1.submit_normal_void (bump 7)).wait_tasks_enter

/-- Thread 100 resumes on `racing_pool`: it reads `is_waiting`, counts itself and parks. -/
def parked_worker_trace : Worker Nat Nat × workbranch Nat Nat × World Nat Nat :=
  mission_steps 100 2 idle_worker_trace.1 racing_pool world0

/-- What thread 2 of `two_worker_pool` finds while thread 1 wins the race for a single
pending removal: `decline > 0` at both unlocked reads, `decline == 0` under the lock. -/
def lost_race_envs : List (workbranch Nat Nat × World Nat Nat) :=
  [({ two_worker_pool with decline := 1 }, world0),
   ({ two_worker_pool with decline := 1 }, world0),
   ({ two_worker_pool with decline := 0, workers := {2} }, world0)]

/-- What thread 100 finds in a pool with decline = 0 and one queued task when nothing else
runs. -/
def quiet_envs : List (workbranch Nat Nat × World Nat Nat) :=
  [(one_worker_pool.submit_normal_void (bump 7), world0),
   (one_worker_pool.submit_normal_void (bump 7), world0),
   (one_worker_pool, world0)]

/-- An interleaving in which thread 1 retires, then thread 2 walks from the top of its
loop into the retire section. -/
def shutdown_schedule : List (Nat × Worker Nat Nat) :=
  [(1, ⟨.retire, empty_function⟩), (2, ⟨.loop, empty_function⟩),
   (2, ⟨.elif, empty_function⟩), (2, ⟨.retire, empty_function⟩)]

/-! ## Theorems: the task queue -/

/-- After a run of submissions the deque holds the urgent tasks, newest first, then what
was queued before, then the normal tasks, oldest first. -/
theorem enqueue_all_q {T : Type} (subs : List (Priority × T)) (tq : taskqueue T) :
    (tq.enqueue_all subs).q = (tagged .urgent subs).reverse ++ tq.q ++ tagged .normal subs := by
  induction subs generalizing tq with
  | nil => simp [taskqueue.enqueue_all, tagged]
  | cons sub rest ih =>
    obtain ⟨p, t⟩ := sub
    have hstep : tq.enqueue_all ((p, t) :: rest) = (tq.enqueue (p, t)).enqueue_all rest := rfl
    rw [hstep, ih]
    cases p <;>
      simp [taskqueue.enqueue, taskqueue.push_back, taskqueue.push_front, tagged]

/-- Popping as many times as the deque is long hands out its elements front to back and
empties it. -/
theorem pop_n_all {T : Type} (l : List T) (tmp : T) :
    ((taskqueue.mk l).pop_n l.length tmp).1 = l.map (fun t => (true, t)) ∧
    ((taskqueue.mk l).pop_n l.length tmp).2.2 = taskqueue.mk [] := by
  induction l generalizing tmp with
  | nil => simp [taskqueue.pop_n]
  | cons t rest ih =>
    have h := ih t
    simp only [List.length_cons, taskqueue.pop_n, taskqueue.try_pop, List.map_cons]
    exact ⟨by rw [h.1], h.2⟩

/-- C1: submissions made to an empty queue with no pop in between (normal through
push_back, urgent through push_front) are handed out by successive try_pop calls as all
urgent tasks in reverse submission order followed by all normal tasks in submission
order; every one of these calls returns true; the next try_pop returns false and leaves
both its out-parameter and the queue as they were. In particular submit<normal>(B)
followed by submit<urgent>(A) on a fresh pool pops the closure of A first and the
closure of B second. -/
theorem C1_pop_order {T σ ρ : Type} (subs : List (Priority × T)) (tmp : T)
    (A B : UserFn σ Unit) (tmp2 : Task σ ρ) :
    ((((taskqueue.mk []).enqueue_all subs).pop_n subs.length tmp).1
        = ((tagged .urgent subs).reverse ++ tagged .normal subs).map (fun t => (true, t))) ∧
    (((taskqueue.mk []).enqueue_all subs).length = subs.length) ∧
    (∀ out : T,
      ((((taskqueue.mk []).enqueue_all subs).pop_n subs.length tmp).2.2).try_pop out
        = (false, out,
            (((taskqueue.mk []).enqueue_all subs).pop_n subs.length tmp).2.2)) ∧
    (((((taskqueue.mk []).enqueue_all subs).pop_n subs.length tmp).2.2).length = 0) ∧
    (((((({} : workbranch σ ρ).submit_normal_void B).submit_urgent_void A).tq).pop_n 2 tmp2).1
        = [(true, void_shim A), (true, void_shim B)]) := by
  have hq := enqueue_all_q subs (taskqueue.mk [])
  have hlen : ((taskqueue.mk ([] : List T)).enqueue_all subs).q.length = subs.length := by
    rw [hq]
    simp only [tagged, List.append_nil, List.length_append, List.length_reverse,
      List.length_map]
    have h := List.length_eq_length_filter_add (l := subs)
      (fun sub : Priority × T => decide (sub.1 = Priority.urgent))
    have h2 : List.filter (fun sub : Priority × T => decide (sub.1 = Priority.normal)) subs
        = List.filter (fun sub : Priority × T => !decide (sub.1 = Priority.urgent)) subs := by
      congr 1
      funext sub
      cases sub.1 <;> simp
    rw [h2]
    omega
  have hpop := pop_n_all ((taskqueue.mk ([] : List T)).enqueue_all subs).q tmp
  rw [hlen] at hpop
  have hmk : taskqueue.mk ((taskqueue.mk ([] : List T)).enqueue_all subs).q
      = (taskqueue.mk ([] : List T)).enqueue_all subs := rfl
  rw [hmk] at hpop
  refine ⟨?_, hlen, ?_, ?_, rfl⟩
  · rw [hpop.1, hq]
    simp
  · intro out
    rw [hpop.2]
    rfl
  · rw [hpop.2]
    rfl

/-! ## Theorems: resizing and the quiescence barrier -/

/-- C3: del_worker throws exactly when the worker table is empty, and then no member
changes; on a non-empty table it returns normally and the only member that changes is
decline, which is incremented (by exactly one, as long as it is below the largest sz_t
value); the worker table keeps its size. -/
theorem C3_del_worker {σ ρ : Type} (s : workbranch σ ρ) :
    ((∃ e, s.del_worker.1 = Except.error e) ↔ s.workers = ∅) ∧
    (s.workers = ∅ → s.del_worker = (Except.error no_worker_error, s)) ∧
    (s.workers ≠ ∅ →
      s.del_worker = (Except.ok (), { s with decline := sz_inc s.decline }) ∧
      s.del_worker.2.workers.card = s.workers.card ∧
      (s.decline + 1 < SZ_MOD → s.del_worker.2.decline = s.decline + 1)) := by
  by_cases h : s.workers = ∅
  · simp [workbranch.del_worker, h]
  · refine ⟨?_, fun h0 => absurd h0 h, fun _ => ?_⟩
    · simp [workbranch.del_worker, h]
    · refine ⟨by simp [workbranch.del_worker, h], by simp [workbranch.del_worker, h], ?_⟩
      intro hlt
      simp [workbranch.del_worker, h, sz_inc, Nat.mod_eq_of_lt hlt]

/-- C3 at a concrete pool: one worker, decline 1. -/
theorem C3_del_worker_witness :
    declining_pool.workers ≠ ∅ ∧ declining_pool.del_worker.2.decline = 2 ∧
    declining_pool.del_worker.2.workers.card = 1 :=
  ⟨by decide,
   ((C3_del_worker declining_pool).2.2 (by decide)).2.2 (by decide),
   ((C3_del_worker declining_pool).2.2 (by decide)).2.1⟩

/-- C4 (the code departs from the claim): a pool built with one worker, after del_worker
and the retirement of that worker, accepts a task and then wait_tasks returns true at
once although num_tasks() is 1. More generally wait_tasks returns true on its first round,
whatever the queue holds, whenever the worker table is empty. The same happens with a
live worker and no pending removal: a worker that found the queue empty before a task was
submitted reads is_waiting after wait_tasks has set it, parks and is counted, and
wait_tasks returns true with the task still queued. -/
theorem C4_wait_tasks_true_with_task_queued {σ ρ : Type} :
    one_worker_pool.num_workers = 1 ∧
    one_worker_pool.del_worker.1.toBool = true ∧
    one_worker_pool.del_worker.2.decline = 1 ∧
    (mission_iteration 100 Worker.start one_worker_pool.del_worker.2 world0).1.pc
      = PC.returned ∧
    retired_pool.num_workers = 0 ∧
    abandoned_task_pool.num_tasks = 1 ∧
    (abandoned_task_pool.wait_tasks_enter.wait_tasks_wake default_timeout 0).map
      (fun x => (x.1, x.2.num_tasks)) = some (true, 1) ∧
    (∀ (s : workbranch σ ρ) (timeout elapsed : Nat), s.workers = ∅ →
      ∃ s2, s.wait_tasks_enter.wait_tasks_wake timeout elapsed = some (true, s2) ∧
        s2.num_tasks = s.num_tasks) ∧
    (idle_worker_trace.1.pc = PC.idle ∧ idle_worker_trace.2.1.num_tasks = 0 ∧
     racing_pool.num_tasks = 1 ∧ racing_pool.num_workers = 1 ∧ racing_pool.decline = 0 ∧
     parked_worker_trace.1.pc = PC.parked ∧ parked_worker_trace.2.1.task_done_workers = 1 ∧
     (parked_worker_trace.2.1.wait_tasks_wake default_timeout 0).map
       (fun x => (x.1, x.2.num_tasks, x.2.num_workers)) = some (true, 1, 1)) := by
  refine ⟨by decide, by decide, by decide, by decide, by decide, by decide, by decide, ?_,
    by decide, by decide, by decide, by decide, by decide, by decide, by decide, by decide⟩
  intro s timeout elapsed h
  refine ⟨s.wait_tasks_enter.wait_tasks_leave, ?_, rfl⟩
  simp [workbranch.wait_tasks_wake, workbranch.wait_pred, workbranch.wait_tasks_enter, h]

/-! ## Theorems: the worker loop -/

/-- On sz_t values the decrement is subtraction of one modulo 2^64. -/
theorem sz_dec_eq_mod (n : Nat) (h : n < SZ_MOD) : sz_dec n = (n + SZ_MOD - 1) % SZ_MOD := by
  unfold sz_dec
  split
  · next h0 =>
    subst h0
    rw [Nat.zero_add, Nat.mod_eq_of_lt (by omega)]
  · next h0 =>
    have h2 : n + SZ_MOD - 1 = (n - 1) + SZ_MOD := by omega
    rw [h2, Nat.add_mod_right, Nat.mod_eq_of_lt (by omega)]

/-- Decrementing a non-zero sz_t value does not wrap. -/
theorem sz_dec_of_pos (n : Nat) (h0 : 0 < n) : sz_dec n = n - 1 := by
  unfold sz_dec
  rw [if_neg (by omega)]

/-- The retire section with a pending removal: the thread returns, decline is
decremented and the entry of the thread is erased. -/
theorem retire_section_of_pos {σ ρ : Type} (tid : Nat) (k : Worker σ ρ) (s : workbranch σ ρ)
    (h : 0 < s.decline) :
    retire_section tid k s =
      ({ k with pc := .returned },
       { s with decline := sz_dec s.decline, workers := s.workers.erase tid }) := by
  have h1 : s.decline ≠ 0 := by omega
  simp [retire_section, h, h1]

/-- The retire section without a pending removal changes nothing and goes back to the
top of the loop. -/
theorem retire_section_of_zero {σ ρ : Type} (tid : Nat) (k : Worker σ ρ) (s : workbranch σ ρ)
    (h : s.decline = 0) :
    retire_section tid k s = ({ k with pc := .loop }, s) := by
  simp [retire_section, h]

/-- A call of a task ends at the top of the loop or aborts; it keeps the local task. -/
theorem run_task_pc {σ ρ : Type} (tid : Nat) (k : Worker σ ρ) (w : World σ ρ) :
    ((run_task tid k w).1.pc = .loop ∨ (run_task tid k w).1.pc = .aborted) ∧
    (run_task tid k w).1.task = k.task := by
  unfold run_task
  split <;> simp

/-- Run alone from the top of the loop, the atomic actions of `mission` add up to one
pass of the loop body in at most five actions. -/
theorem mission_steps_eq_iteration {σ ρ : Type} (tid : Nat) (k : Worker σ ρ)
    (s : workbranch σ ρ) (w : World σ ρ) :
    ∃ n, n ≤ 5 ∧
      mission_steps tid n { k with pc := .loop } s w = mission_iteration tid k s w := by
  by_cases hd : s.decline = 0
  · cases hq : s.tq.q with
    | cons t rest =>
      refine ⟨3, by omega, ?_⟩
      simp [mission_steps, mission_step, mission_iteration, taskqueue.try_pop, hd, hq]
    | nil =>
      by_cases hw : s.is_waiting = true
      · refine ⟨5, by omega, ?_⟩
        simp [mission_steps, mission_step, mission_iteration, taskqueue.try_pop, hd, hq, hw,
          park_section]
      · refine ⟨4, by omega, ?_⟩
        simp [mission_steps, mission_step, mission_iteration, taskqueue.try_pop, hd, hq, hw]
  · have hpos : 0 < s.decline := by omega
    have hle : ¬ s.decline ≤ 0 := by omega
    refine ⟨3, by omega, ?_⟩
    simp [mission_steps, mission_step, mission_iteration, hle, hpos,
      retire_section_of_pos]

/-- A pass with decline = 0 and a non-empty queue pops the head and calls it. -/
theorem mission_iteration_pop {σ ρ : Type} (tid : Nat) (k : Worker σ ρ) (s : workbranch σ ρ)
    (w : World σ ρ) (t : Task σ ρ) (rest : List (Task σ ρ))
    (hd : s.decline = 0) (hq : s.tq.q = t :: rest) :
    mission_iteration tid k s w =
      ((run_task tid ⟨.running, t⟩ w).1, { s with tq := ⟨rest⟩ },
       (run_task tid ⟨.running, t⟩ w).2) := by
  obtain ⟨d, c, iw, ds, ws, ⟨q⟩⟩ := s
  simp only at hd hq
  subst hd hq
  rfl

/-- A pass with decline > 0 retires without touching queue or world. -/
theorem mission_iteration_retire {σ ρ : Type} (tid : Nat) (k : Worker σ ρ)
    (s : workbranch σ ρ) (w : World σ ρ) (hpos : 0 < s.decline) :
    mission_iteration tid k s w =
      ({ k with pc := .returned },
       { s with decline := sz_dec s.decline, workers := s.workers.erase tid }, w) := by
  have hle : ¬ s.decline ≤ 0 := by omega
  unfold mission_iteration
  rw [if_neg hle, if_pos hpos, retire_section_of_pos tid k s hpos]

/-- A pass with decline = 0 and an empty queue parks or yields. -/
theorem mission_iteration_idle {σ ρ : Type} (tid : Nat) (k : Worker σ ρ)
    (s : workbranch σ ρ) (w : World σ ρ) (hd : s.decline = 0) (hq : s.tq.q = []) :
    mission_iteration tid k s w =
      if s.is_waiting then
        ({ k with pc := .parked },
         { s with task_done_workers := sz_inc s.task_done_workers }, w)
      else ({ k with pc := .loop }, s, w) := by
  obtain ⟨d, c, iw, ds, ws, ⟨q⟩⟩ := s
  simp only at hd hq
  subst hd hq
  cases iw <;> rfl

/-- C10 as stated fails: with decline = 1 and one task queued, a pass of worker 100
through the loop pops nothing and runs nothing (the queue still holds the task, no event
is recorded, whereas calling the head would record its invocation); the worker retires. -/
theorem C10_counterexample_retire_with_task_queued :
    declining_pool.tq.length = 1 ∧ declining_pool.decline = 1 ∧
    (mission_iteration 100 Worker.start declining_pool world0).2.1.tq.length = 1 ∧
    (mission_iteration 100 Worker.start declining_pool world0).2.2.events = [] ∧
    (mission_iteration 100 Worker.start declining_pool world0).2.2.user = 0 ∧
    (run_task 100 ⟨.running, void_shim (bump 7)⟩ world0).2.events = [Event.invoked 7] ∧
    (mission_iteration 100 Worker.start declining_pool world0).1.pc = PC.returned ∧
    (mission_iteration 100 Worker.start declining_pool world0).2.1.decline = 0 ∧
    (mission_iteration 100 Worker.start declining_pool world0).2.1.workers = ∅ := by
  refine ⟨by decide, by decide, by decide, by decide, by decide, by decide, by decide,
    by decide, by decide⟩

/-- Run without interference, a pass through the loop body behaves as follows. With
decline = 0 and a non-empty queue it pops the head and calls it. With decline > 0 it does
not touch the queue, decrements decline, erases its own table entry and returns. It ends
in a return only if decline was > 0, and then queue, world and local task are untouched.
With decline = 0 and an empty queue it parks when is_waiting is set and yields otherwise. -/
theorem mission_iteration_cases {σ ρ : Type} (tid : Nat) (k : Worker σ ρ) (s : workbranch σ ρ)
    (w : World σ ρ) :
    (s.decline = 0 → ∀ t rest, s.tq.q = t :: rest →
      mission_iteration tid k s w =
        ((run_task tid ⟨.running, t⟩ w).1, { s with tq := ⟨rest⟩ },
         (run_task tid ⟨.running, t⟩ w).2)) ∧
    (0 < s.decline →
      mission_iteration tid k s w =
        ({ k with pc := .returned },
         { s with decline := sz_dec s.decline, workers := s.workers.erase tid }, w) ∧
      sz_dec s.decline + 1 = s.decline) ∧
    ((mission_iteration tid k s w).1.pc = .returned →
      0 < s.decline ∧ (mission_iteration tid k s w).2.1.tq = s.tq ∧
      (mission_iteration tid k s w).2.2 = w ∧ (mission_iteration tid k s w).1.task = k.task) ∧
    (s.decline = 0 → s.tq.q = [] →
      mission_iteration tid k s w =
        if s.is_waiting then
          ({ k with pc := .parked },
           { s with task_done_workers := sz_inc s.task_done_workers }, w)
        else ({ k with pc := .loop }, s, w)) := by
  refine ⟨?_, ?_, ?_, ?_⟩
  · intro hd t rest hq
    exact mission_iteration_pop tid k s w t rest hd hq
  · intro hpos
    refine ⟨mission_iteration_retire tid k s w hpos, ?_⟩
    rw [sz_dec_of_pos _ hpos]
    omega
  · intro hret
    by_cases hd : s.decline = 0
    · exfalso
      cases hq : s.tq.q with
      | cons t rest =>
        rw [mission_iteration_pop tid k s w t rest hd hq] at hret
        have hpc := (run_task_pc tid ⟨.running, t⟩ w).1
        rcases hpc with h | h
        · rw [h] at hret
          exact PC.noConfusion hret
        · rw [h] at hret
          exact PC.noConfusion hret
      | nil =>
        rw [mission_iteration_idle tid k s w hd hq] at hret
        cases hw : s.is_waiting
        · rw [hw] at hret
          exact PC.noConfusion hret
        · rw [hw] at hret
          exact PC.noConfusion hret
    · have hpos : 0 < s.decline := by omega
      rw [mission_iteration_retire tid k s w hpos]
      exact ⟨hpos, rfl, rfl, rfl⟩
  · intro hd hq
    exact mission_iteration_idle tid k s w hd hq

/-- Every recorded action of a pass is an application of `mission_step`. -/
theorem mission_pass_after {σ ρ : Type} (tid : Nat) (k : Worker σ ρ)
    (envs : List (workbranch σ ρ × World σ ρ)) :
    ∀ a ∈ mission_pass tid k envs, a.after = mission_step tid a.before a.pool a.world := by
  induction envs generalizing k with
  | nil =>
    intro a ha
    simp [mission_pass] at ha
  | cons e rest ih =>
    obtain ⟨s, w⟩ := e
    intro a ha
    simp only [mission_pass, List.mem_cons] at ha
    rcases ha with h | h
    · subst h
      rfl
    · by_cases he : (mission_step tid k s w).1.pc.ends_pass = true
      · rw [if_pos he] at h
        simp at h
      · rw [if_neg he] at h
        exact ih _ a h

/-- An action taken in one of the two `else` branches touches neither the queue nor the
world nor the local task; it stays in these branches or ends the pass; it makes the thread
return only as the retire section entered with decline > 0, which decrements decline and
erases the entry of the thread; the retire section entered with decline = 0 changes
nothing and goes back to the top of the loop. -/
theorem mission_step_no_task {σ ρ : Type} (tid : Nat) (k : Worker σ ρ) (s : workbranch σ ρ)
    (w : World σ ρ) (hk : k.pc.no_task = true) :
    (mission_step tid k s w).2.1.tq = s.tq ∧ (mission_step tid k s w).2.2 = w ∧
    (mission_step tid k s w).1.task = k.task ∧
    ((mission_step tid k s w).1.pc.no_task = true ∨
      (mission_step tid k s w).1.pc.ends_pass = true) ∧
    ((mission_step tid k s w).1.pc = .returned →
      k.pc = .retire ∧ 0 < s.decline ∧
      (mission_step tid k s w).2.1.decline + 1 = s.decline ∧
      (mission_step tid k s w).2.1.workers = s.workers.erase tid) ∧
    (k.pc = .retire → s.decline = 0 → mission_step tid k s w = (⟨.loop, k.task⟩, s, w)) := by
  obtain ⟨pc, task⟩ := k
  cases pc <;> simp only [PC.no_task] at hk <;> try exact absurd hk (by decide)
  case elif =>
    by_cases h : 0 < s.decline <;> simp [mission_step, h, PC.no_task, PC.ends_pass]
  case retire =>
    by_cases h : 0 < s.decline
    · have hdec : sz_dec s.decline + 1 = s.decline := by
        rw [sz_dec_of_pos _ h]
        omega
      have h0 : s.decline ≠ 0 := by omega
      simp [mission_step, retire_section_of_pos, h, h0, hdec, PC.no_task, PC.ends_pass]
    · have h0 : s.decline = 0 := by omega
      simp [mission_step, retire_section_of_zero, h0, PC.no_task, PC.ends_pass]
  case idle =>
    cases hw : s.is_waiting <;> simp [mission_step, hw, PC.no_task, PC.ends_pass]
  case park => simp [mission_step, park_section, PC.no_task, PC.ends_pass]

/-- A pass that stands in one of the two `else` branches stays there until it is over. -/
theorem mission_pass_no_task {σ ρ : Type} (tid : Nat) (k : Worker σ ρ)
    (envs : List (workbranch σ ρ × World σ ρ)) (hk : k.pc.no_task = true) :
    ∀ a ∈ mission_pass tid k envs, a.before.pc.no_task = true := by
  induction envs generalizing k with
  | nil =>
    intro a ha
    simp [mission_pass] at ha
  | cons e rest ih =>
    obtain ⟨s, w⟩ := e
    intro a ha
    simp only [mission_pass, List.mem_cons] at ha
    rcases ha with h | h
    · subst h
      exact hk
    · by_cases he : (mission_step tid k s w).1.pc.ends_pass = true
      · rw [if_pos he] at h
        simp at h
      · rw [if_neg he] at h
        have hnext := (mission_step_no_task tid k s w hk).2.2.2.1
        rcases hnext with hq | hq
        · exact ih _ hq a h
        · exact absurd hq he

/-- What holds of every action of a pass that stands in one of the two `else` branches. -/
theorem mission_pass_no_task_facts {σ ρ : Type} (tid : Nat) (k : Worker σ ρ)
    (envs : List (workbranch σ ρ × World σ ρ)) (hk : k.pc.no_task = true) :
    ∀ a ∈ mission_pass tid k envs,
      a.before.pc.no_task = true ∧ a.after.2.1.tq = a.pool.tq ∧ a.after.2.2 = a.world ∧
      (a.after.1.pc = .returned →
        a.before.pc = .retire ∧ 0 < a.pool.decline ∧
        a.after.2.1.decline + 1 = a.pool.decline ∧
        a.after.2.1.workers = a.pool.workers.erase tid) ∧
      (a.before.pc = .retire → a.pool.decline = 0 →
        a.after = (⟨.loop, a.before.task⟩, a.pool, a.world)) := by
  intro a ha
  have hq := mission_pass_no_task tid k envs hk a ha
  have hs := mission_step_no_task tid a.before a.pool a.world hq
  rw [mission_pass_after tid k envs a ha]
  exact ⟨hq, hs.1, hs.2.1, hs.2.2.2.2.1, hs.2.2.2.2.2⟩

/-- The model agrees with the source on a lost race: thread 2 reads decline > 0 twice,
finds decline = 0 under the lock after thread 1 has retired, changes nothing and is back
at the top of its loop; the queued task is still there. -/
theorem mission_pass_lost_race :
    (mission_pass 2 Worker.start lost_race_envs).map (fun a => (a.before.pc, a.after.1.pc))
      = [(PC.loop, PC.elif), (PC.elif, PC.retire), (PC.retire, PC.loop)] ∧
    (mission_pass 2 Worker.start lost_race_envs).map
        (fun a => (a.after.2.1.decline, a.after.2.1.workers, a.after.2.1.tq.length))
      = [(1, {1, 2}, 1), (1, {1, 2}, 1), (0, {2}, 1)] := by
  refine ⟨by decide, by decide⟩

/-- C10, amended: in a pass through the loop body, whatever the other threads do between
its atomic actions, the worker first reads decline. It tries a pop only in a pass whose
first read found decline = 0, and when that pop finds the queue non-empty the pass pops
the head and calls it. In a pass whose first read found decline > 0 no pop is tried and
no task is called, even when tasks are queued. The worker returns only from the retire
section entered with decline > 0, where decline drops by one and its own table entry is
erased, and only in a pass in which no task was obtained: no task was called and any pop
tried found the queue empty. The retire section entered with decline = 0 changes nothing
and the worker starts a new pass. -/
theorem C10_mission_pass {σ ρ : Type} (tid : Nat) (task0 : Task σ ρ)
    (envs : List (workbranch σ ρ × World σ ρ)) :
    (∀ s0 w0 rest, envs = (s0, w0) :: rest → 0 < s0.decline →
      ∀ a ∈ mission_pass tid ⟨.loop, task0⟩ envs,
        a.before.pc ≠ .popping ∧ a.before.pc ≠ .running ∧
        a.after.2.1.tq = a.pool.tq ∧ a.after.2.2 = a.world) ∧
    (∀ s0 w0 s1 w1 s2 w2 rest t q, envs = (s0, w0) :: (s1, w1) :: (s2, w2) :: rest →
      s0.decline = 0 → s1.tq.q = t :: q →
      mission_pass tid ⟨.loop, task0⟩ envs =
        [⟨⟨.loop, task0⟩, s0, w0, (⟨.popping, task0⟩, s0, w0)⟩,
         ⟨⟨.popping, task0⟩, s1, w1, (⟨.running, t⟩, { s1 with tq := ⟨q⟩ }, w1)⟩,
         ⟨⟨.running, t⟩, s2, w2,
           ((run_task tid ⟨.running, t⟩ w2).1, s2, (run_task tid ⟨.running, t⟩ w2).2)⟩]) ∧
    (∀ a ∈ mission_pass tid ⟨.loop, task0⟩ envs, a.before.pc = .popping →
      ∃ s0 w0 rest, envs = (s0, w0) :: rest ∧ s0.decline = 0) ∧
    (∀ a ∈ mission_pass tid ⟨.loop, task0⟩ envs, a.after.1.pc = .returned →
      (a.before.pc = .retire ∧ 0 < a.pool.decline ∧
       a.after.2.1.decline + 1 = a.pool.decline ∧
       a.after.2.1.workers = a.pool.workers.erase tid) ∧
      (∀ b ∈ mission_pass tid ⟨.loop, task0⟩ envs,
        b.before.pc ≠ .running ∧ b.after.2.2 = b.world ∧
        (b.before.pc = .popping → b.pool.tq.q = [] ∧ b.after.2.1.tq = b.pool.tq))) ∧
    (∀ a ∈ mission_pass tid ⟨.loop, task0⟩ envs, a.before.pc = .retire →
      a.pool.decline = 0 → a.after = (⟨.loop, a.before.task⟩, a.pool, a.world)) := by
  -- an action in the `else` branches is neither a pop nor a call
  have hnt : ∀ pc : PC, pc.no_task = true → pc ≠ .popping ∧ pc ≠ .running ∧ pc ≠ .loop := by
    intro pc h
    cases pc <;> simp [PC.no_task] at h <;> simp
  cases envs with
  | nil =>
    refine ⟨?_, ?_, ?_, ?_, ?_⟩
    · intro s0 w0 rest h
      exact absurd h (by simp)
    · intro s0 w0 s1 w1 s2 w2 rest t q h
      exact absurd h (by simp)
    · intro a ha
      simp [mission_pass] at ha
    · intro a ha
      simp [mission_pass] at ha
    · intro a ha
      simp [mission_pass] at ha
  | cons e0 e1 =>
    obtain ⟨s0, w0⟩ := e0
    by_cases hd : 0 < s0.decline
    · -- first read: decline > 0
      have hle : ¬ s0.decline ≤ 0 := by omega
      have hpass : mission_pass tid ⟨.loop, task0⟩ ((s0, w0) :: e1) =
          ⟨⟨.loop, task0⟩, s0, w0, (⟨.elif, task0⟩, s0, w0)⟩ ::
            mission_pass tid ⟨.elif, task0⟩ e1 := by
        simp [mission_pass, mission_step, hle, PC.ends_pass]
      have htail := mission_pass_no_task_facts tid ⟨.elif, task0⟩ e1 rfl
      rw [hpass]
      refine ⟨?_, ?_, ?_, ?_, ?_⟩
      · intro _ _ _ _ _ a ha
        rcases List.mem_cons.mp ha with h | h
        · subst h
          simp
        · obtain ⟨h1, h2, h3, _, _⟩ := htail a h
          exact ⟨(hnt _ h1).1, (hnt _ h1).2.1, h2, h3⟩
      · intro s0' w0' s1 w1 s2 w2 rest t q h h0
        simp only [List.cons.injEq, Prod.mk.injEq] at h
        obtain ⟨⟨hs, _⟩, _⟩ := h
        subst hs
        omega
      · intro a ha hp
        rcases List.mem_cons.mp ha with h | h
        · subst h
          simp at hp
        · exact absurd hp (hnt _ (htail a h).1).1
      · intro a ha hret
        rcases List.mem_cons.mp ha with h | h
        · subst h
          simp at hret
        · refine ⟨(htail a h).2.2.2.1 hret, ?_⟩
          intro b hb
          rcases List.mem_cons.mp hb with h2 | h2
          · subst h2
            simp
          · obtain ⟨h1, _, h3, _, _⟩ := htail b h2
            exact ⟨(hnt _ h1).2.1, h3, fun hp => absurd hp (hnt _ h1).1⟩
      · intro a ha hr h0
        rcases List.mem_cons.mp ha with h | h
        · subst h
          simp at hr
        · exact (htail a h).2.2.2.2 hr h0
    · -- first read: decline = 0
      have hz : s0.decline = 0 := by omega
      have hpass : mission_pass tid ⟨.loop, task0⟩ ((s0, w0) :: e1) =
          ⟨⟨.loop, task0⟩, s0, w0, (⟨.popping, task0⟩, s0, w0)⟩ ::
            mission_pass tid ⟨.popping, task0⟩ e1 := by
        simp [mission_pass, mission_step, hz, PC.ends_pass]
      rw [hpass]
      cases e1 with
      | nil =>
        refine ⟨?_, ?_, ?_, ?_, ?_⟩
        · intro s0' w0' rest h hpos
          simp only [List.cons.injEq, Prod.mk.injEq] at h
          obtain ⟨⟨hs, _⟩, _⟩ := h
          subst hs
          omega
        · intro s0' w0' s1 w1 s2 w2 rest t q h
          exact absurd h (by simp)
        · intro a ha hp
          simp [mission_pass] at ha
          subst ha
          simp at hp
        · intro a ha hret
          simp [mission_pass] at ha
          subst ha
          simp at hret
        · intro a ha hr
          simp [mission_pass] at ha
          subst ha
          simp at hr
      | cons e1h e2 =>
        obtain ⟨s1, w1⟩ := e1h
        cases hq : s1.tq.q with
        | nil =>
          -- the pop fails
          have hpass2 : mission_pass tid ⟨.popping, task0⟩ ((s1, w1) :: e2) =
              ⟨⟨.popping, task0⟩, s1, w1, (⟨.elif, task0⟩, { s1 with tq := s1.tq }, w1)⟩ ::
                mission_pass tid ⟨.elif, task0⟩ e2 := by
            simp [mission_pass, mission_step, taskqueue.try_pop, hq, PC.ends_pass]
          have htail := mission_pass_no_task_facts tid ⟨.elif, task0⟩ e2 rfl
          rw [hpass2]
          refine ⟨?_, ?_, ?_, ?_, ?_⟩
          · intro s0' w0' rest h hpos
            simp only [List.cons.injEq, Prod.mk.injEq] at h
            obtain ⟨⟨hs, _⟩, _⟩ := h
            subst hs
            omega
          · intro s0' w0' s1' w1' s2 w2 rest t q h _ hq'
            simp only [List.cons.injEq, Prod.mk.injEq] at h
            obtain ⟨_, ⟨hs, _⟩, _⟩ := h
            subst hs
            rw [hq] at hq'
            exact absurd hq' (by simp)
          · intro a _ _
            exact ⟨s0, w0, _, rfl, hz⟩
          · intro a ha hret
            rcases List.mem_cons.mp ha with h | h
            · subst h
              simp at hret
            · rcases List.mem_cons.mp h with h | h
              · subst h
                simp at hret
              · refine ⟨(htail a h).2.2.2.1 hret, ?_⟩
                intro b hb
                rcases List.mem_cons.mp hb with h2 | h2
                · subst h2
                  simp
                · rcases List.mem_cons.mp h2 with h2 | h2
                  · subst h2
                    simp [hq]
                  · obtain ⟨h1, _, h3, _, _⟩ := htail b h2
                    exact ⟨(hnt _ h1).2.1, h3, fun hp => absurd hp (hnt _ h1).1⟩
          · intro a ha hr h0
            rcases List.mem_cons.mp ha with h | h
            · subst h
              simp at hr
            · rcases List.mem_cons.mp h with h | h
              · subst h
                simp at hr
              · exact (htail a h).2.2.2.2 hr h0
        | cons t q =>
          -- the pop obtains the head
          have hrun : ∀ w2 : World σ ρ,
              (run_task tid ⟨.running, t⟩ w2).1.pc.ends_pass = true := by
            intro w2
            rcases (run_task_pc tid ⟨.running, t⟩ w2).1 with h | h <;> rw [h] <;> rfl
          have hnotret : ∀ w2 : World σ ρ,
              (run_task tid ⟨.running, t⟩ w2).1.pc ≠ .returned := by
            intro w2
            rcases (run_task_pc tid ⟨.running, t⟩ w2).1 with h | h <;> rw [h] <;> decide
          cases e2 with
          | nil =>
            have hpass2 : mission_pass tid ⟨.popping, task0⟩ [(s1, w1)] =
                [⟨⟨.popping, task0⟩, s1, w1, (⟨.running, t⟩, { s1 with tq := ⟨q⟩ }, w1)⟩] := by
              simp [mission_pass, mission_step, taskqueue.try_pop, hq, PC.ends_pass]
            rw [hpass2]
            refine ⟨?_, ?_, ?_, ?_, ?_⟩
            · intro s0' w0' rest h hpos
              simp only [List.cons.injEq, Prod.mk.injEq] at h
              obtain ⟨⟨hs, _⟩, _⟩ := h
              subst hs
              omega
            · intro s0' w0' s1' w1' s2 w2 rest t' q' h
              exact absurd h (by simp)
            · intro a _ _
              exact ⟨s0, w0, _, rfl, hz⟩
            · intro a ha hret
              simp only [List.mem_cons, List.mem_singleton, List.not_mem_nil, or_false] at ha
              rcases ha with h | h <;> subst h <;> simp at hret
            · intro a ha hr
              simp only [List.mem_cons, List.mem_singleton, List.not_mem_nil, or_false] at ha
              rcases ha with h | h <;> subst h <;> simp at hr
          | cons e2h e3 =>
            obtain ⟨s2, w2⟩ := e2h
            have hpass2 : mission_pass tid ⟨.popping, task0⟩ ((s1, w1) :: (s2, w2) :: e3) =
                [⟨⟨.popping, task0⟩, s1, w1, (⟨.running, t⟩, { s1 with tq := ⟨q⟩ }, w1)⟩,
                 ⟨⟨.running, t⟩, s2, w2,
                   ((run_task tid ⟨.running, t⟩ w2).1, s2,
                    (run_task tid ⟨.running, t⟩ w2).2)⟩] := by
              have h1 : mission_step tid ⟨.popping, task0⟩ s1 w1 =
                  (⟨.running, t⟩, { s1 with tq := ⟨q⟩ }, w1) := by
                simp [mission_step, taskqueue.try_pop, hq]
              have h2 : mission_step tid ⟨.running, t⟩ s2 w2 =
                  ((run_task tid ⟨.running, t⟩ w2).1, s2,
                   (run_task tid ⟨.running, t⟩ w2).2) := rfl
              have h3 : PC.running.ends_pass = false := rfl
              simp only [mission_pass, h1, h2, h3, hrun w2, if_true]
              simp
            rw [hpass2]
            refine ⟨?_, ?_, ?_, ?_, ?_⟩
            · intro s0' w0' rest h hpos
              simp only [List.cons.injEq, Prod.mk.injEq] at h
              obtain ⟨⟨hs, _⟩, _⟩ := h
              subst hs
              omega
            · intro s0' w0' s1' w1' s2' w2' rest t' q' h _ hq'
              simp only [List.cons.injEq, Prod.mk.injEq] at h
              obtain ⟨⟨hs0, hw0⟩, ⟨hs1, hw1⟩, ⟨hs2, hw2⟩, _⟩ := h
              subst hs0 hw0 hs1 hw1 hs2 hw2
              rw [hq] at hq'
              simp only [List.cons.injEq] at hq'
              obtain ⟨ht, hq2⟩ := hq'
              subst ht hq2
              rfl
            · intro a _ _
              exact ⟨s0, w0, _, rfl, hz⟩
            · intro a ha hret
              simp only [List.mem_cons, List.mem_singleton, List.not_mem_nil, or_false] at ha
              rcases ha with h | h | h
              · subst h
                simp at hret
              · subst h
                simp at hret
              · subst h
                exact absurd hret (hnotret w2)
            · intro a ha hr
              simp only [List.mem_cons, List.mem_singleton, List.not_mem_nil, or_false] at ha
              rcases ha with h | h | h <;> subst h <;> simp at hr

/-- C10 (amended) at a concrete pass: decline = 0 and one task queued; thread 100 reads
decline, pops the task and calls it. -/
theorem C10_mission_pass_witness :
    mission_pass 100 Worker.start quiet_envs =
      [⟨⟨.loop, empty_function⟩, one_worker_pool.submit_normal_void (bump 7), world0,
          (⟨.popping, empty_function⟩, one_worker_pool.submit_normal_void (bump 7), world0)⟩,
       ⟨⟨.popping, empty_function⟩, one_worker_pool.submit_normal_void (bump 7), world0,
          (⟨.running, void_shim (bump 7)⟩,
           { one_worker_pool.submit_normal_void (bump 7) with tq := ⟨[]⟩ }, world0)⟩,
       ⟨⟨.running, void_shim (bump 7)⟩, one_worker_pool, world0,
          ((run_task 100 ⟨.running, void_shim (bump 7)⟩ world0).1, one_worker_pool,
           (run_task 100 ⟨.running, void_shim (bump 7)⟩ world0).2)⟩] :=
  (C10_mission_pass 100 empty_function quiet_envs).2.1
    (one_worker_pool.submit_normal_void (bump 7)) world0
    (one_worker_pool.submit_normal_void (bump 7)) world0
    one_worker_pool world0 [] (void_shim (bump 7)) [] rfl (by decide) rfl

/-! ## Theorems: shutdown -/

/-- What one atomic action of a worker does to the shared counters: it never touches
destructing; it leaves decline and the worker table alone, unless it is the retire section
entered with decline > 0, which decrements decline, erases the entry of the acting thread
and makes the thread return. -/
theorem mission_step_shared {σ ρ : Type} (tid : Nat) (k : Worker σ ρ) (s : workbranch σ ρ)
    (w : World σ ρ) :
    (mission_step tid k s w).2.1.destructing = s.destructing ∧
    (((mission_step tid k s w).2.1.decline = s.decline ∧
      (mission_step tid k s w).2.1.workers = s.workers ∧
      ¬ ((mission_step tid k s w).1.pc = .returned ∧ k.pc = .retire)) ∨
     (k.pc = .retire ∧ 0 < s.decline ∧
      (mission_step tid k s w).2.1.decline = sz_dec s.decline ∧
      (mission_step tid k s w).2.1.workers = s.workers.erase tid ∧
      (mission_step tid k s w).1.pc = .returned)) := by
  obtain ⟨pc, task⟩ := k
  cases pc
  case loop =>
    by_cases h : s.decline ≤ 0 <;> simp [mission_step, h]
  case popping =>
    cases hq : s.tq.q <;> simp [mission_step, taskqueue.try_pop, hq]
  case running => simp [mission_step]
  case elif =>
    by_cases h : 0 < s.decline <;> simp [mission_step, h]
  case retire =>
    by_cases h : 0 < s.decline
    · refine ⟨?_, Or.inr ⟨rfl, h, ?_, ?_, ?_⟩⟩ <;>
        simp [mission_step, retire_section_of_pos, h]
    · have h0 : s.decline = 0 := by omega
      refine ⟨?_, Or.inl ⟨?_, ?_, ?_⟩⟩ <;>
        simp [mission_step, retire_section_of_zero, h0]
  case idle =>
    cases hw : s.is_waiting <;> simp [mission_step, hw]
  case park => simp [mission_step, park_section]
  case parked => simp [mission_step]
  case returned => simp [mission_step]
  case aborted => simp [mission_step]

/-- The shutdown invariant survives every interleaving of worker actions. -/
theorem worker_steps_inv {σ ρ : Type} (table : Finset Nat) (sched : List (Nat × Worker σ ρ))
    (s : workbranch σ ρ) (w : World σ ρ) (gone : List Nat) (h : shutdown_inv table s gone) :
    shutdown_inv table (worker_steps sched s w gone).1 (worker_steps sched s w gone).2.2 := by
  induction sched generalizing s w gone with
  | nil => exact h
  | cons a rest ih =>
    obtain ⟨tid, k⟩ := a
    by_cases hmem : tid ∈ s.workers
    · have hstep : worker_steps ((tid, k) :: rest) s w gone =
          worker_steps rest (mission_step tid k s w).2.1 (mission_step tid k s w).2.2
            (if (mission_step tid k s w).1.pc = .returned ∧ k.pc = .retire
              then gone ++ [tid] else gone) := by
        simp [worker_steps, hmem]
      rw [hstep]
      apply ih
      obtain ⟨hdes, hdec, hsum, hnd, hdisj, htab⟩ := h
      obtain ⟨hd, hcase⟩ := mission_step_shared tid k s w
      rcases hcase with ⟨h1, h2, h3⟩ | ⟨h1, h2, h3, h4, h5⟩
      · rw [if_neg h3]
        refine ⟨by rw [hd, hdes], by rw [h1, h2, hdec], by rw [h1, hsum], hnd, ?_, ?_⟩
        · intro t ht
          rw [h2]
          exact hdisj t ht
        · intro t
          rw [h2]
          exact htab t
      · rw [if_pos ⟨h5, h1⟩]
        have hnot : tid ∉ gone := fun hg => hdisj tid hg hmem
        have hcard : (s.workers.erase tid).card = s.workers.card - 1 :=
          Finset.card_erase_of_mem hmem
        refine ⟨by rw [hd, hdes], ?_, ?_, ?_, ?_, ?_⟩
        · rw [h3, h4, hcard, sz_dec_of_pos _ h2, hdec]
        · rw [h3, sz_dec_of_pos _ h2, List.length_append, List.length_singleton]
          omega
        · rw [List.nodup_append]
          refine ⟨hnd, List.nodup_singleton tid, ?_⟩
          intro a ha hb
          rw [List.mem_singleton] at hb
          subst hb
          exact hnot ha
        · intro t ht
          rw [h4]
          rw [List.mem_append, List.mem_singleton] at ht
          rcases ht with ht | ht
          · exact fun hm => hdisj t ht (Finset.mem_of_mem_erase hm)
          · subst ht
            exact Finset.not_mem_erase t s.workers
        · intro t
          rw [h4, htab t, Finset.mem_erase, List.mem_append, List.mem_singleton]
          by_cases ht : t = tid
          · subst ht
            simp [hmem]
          · simp [ht]
    · have hstep : worker_steps ((tid, k) :: rest) s w gone = worker_steps rest s w gone := by
        simp [worker_steps, hmem]
      rw [hstep]
      exact ih s w gone h

/-- C6: from any pool, the destructor sets destructing and sets decline to the number N of
registered workers, whatever decline was pending, and changes nothing else. After that,
along every interleaving of worker actions: destructing stays set; decline equals the
size of the worker table; decline plus the number of workers that have returned is N; the
returned workers are distinct, are exactly the table entries erased so far, and none of
them is still registered. Hence the destructor's condition decline == 0 holds exactly when
N workers have returned, and then the table is empty. A worker action changes decline or
the table only in the retire section entered with decline >= 1, where decline drops by
exactly one (no wrap) and exactly the acting thread's entry is erased. -/
theorem C6_shutdown_handshake {σ ρ : Type} (s : workbranch σ ρ) (w : World σ ρ)
    (sched : List (Nat × Worker σ ρ)) :
    s.destruct_enter = { s with decline := s.workers.card, destructing := true } ∧
    (worker_steps sched s.destruct_enter w []).1.destructing = true ∧
    (worker_steps sched s.destruct_enter w []).1.decline
      = (worker_steps sched s.destruct_enter w []).1.workers.card ∧
    (worker_steps sched s.destruct_enter w []).1.decline
      + (worker_steps sched s.destruct_enter w []).2.2.length = s.workers.card ∧
    (worker_steps sched s.destruct_enter w []).2.2.Nodup ∧
    (∀ t, t ∈ (worker_steps sched s.destruct_enter w []).2.2 →
      t ∉ (worker_steps sched s.destruct_enter w []).1.workers) ∧
    (∀ t, t ∈ s.workers ↔
      (t ∈ (worker_steps sched s.destruct_enter w []).1.workers ∨
       t ∈ (worker_steps sched s.destruct_enter w []).2.2)) ∧
    ((worker_steps sched s.destruct_enter w []).1.destruct_pred = true ↔
      (worker_steps sched s.destruct_enter w []).2.2.length = s.workers.card) ∧
    ((worker_steps sched s.destruct_enter w []).1.destruct_pred = true →
      (worker_steps sched s.destruct_enter w []).1.workers = ∅) ∧
    (∀ (tid : Nat) (k : Worker σ ρ) (s1 : workbranch σ ρ) (w1 : World σ ρ),
      ((mission_step tid k s1 w1).2.1.decline = s1.decline ∧
       (mission_step tid k s1 w1).2.1.workers = s1.workers) ∨
      (k.pc = .retire ∧ 1 ≤ s1.decline ∧
       (mission_step tid k s1 w1).2.1.decline + 1 = s1.decline ∧
       (mission_step tid k s1 w1).2.1.workers = s1.workers.erase tid ∧
       (mission_step tid k s1 w1).1.pc = .returned)) := by
  have hinit : shutdown_inv s.workers s.destruct_enter [] := by
    refine ⟨rfl, rfl, rfl, List.nodup_nil, ?_, ?_⟩
    · intro t ht
      exact absurd ht (List.not_mem_nil t)
    · intro t
      simp [workbranch.destruct_enter]
  obtain ⟨h1, h2, h3, h4, h5, h6⟩ := worker_steps_inv s.workers sched s.destruct_enter w [] hinit
  refine ⟨rfl, h1, h2, h3, h4, h5, h6, ?_, ?_, ?_⟩
  · simp only [workbranch.destruct_pred, decide_eq_true_eq]
    omega
  · simp only [workbranch.destruct_pred, decide_eq_true_eq]
    intro h0
    rw [h0] at h2
    exact Finset.card_eq_zero.mp h2.symm
  · intro tid k s1 w1
    obtain ⟨_, hcase⟩ := mission_step_shared tid k s1 w1
    rcases hcase with ⟨a, b, _⟩ | ⟨a, b, c, d, e⟩
    · exact Or.inl ⟨a, b⟩
    · refine Or.inr ⟨a, b, ?_, d, e⟩
      rw [c, sz_dec_of_pos _ b]
      omega

/-- C6 at a concrete pool: two workers and a pending decline of 3; both workers retire. -/
theorem C6_shutdown_handshake_witness :
    two_worker_pool.decline = 3 ∧ two_worker_pool.destruct_enter.decline = 2 ∧
    (worker_steps shutdown_schedule two_worker_pool.destruct_enter world0 []).2.2 = [1, 2] ∧
    (worker_steps shutdown_schedule two_worker_pool.destruct_enter world0 []).1.decline = 0 ∧
    (worker_steps shutdown_schedule two_worker_pool.destruct_enter world0 []).1.workers = ∅ :=
  ⟨by decide, by decide, by decide, by decide,
   (C6_shutdown_handshake two_worker_pool world0 shutdown_schedule).2.2.2.2.2.2.2.2.1
     (by decide)⟩

/-! ## Theorems: the submit shims -/

/-- The handlers swallow every exception. -/
theorem catch_log_ok {σ ρ : Type} (tid : Nat) (r : Except Exn Unit × World σ ρ) :
    (catch_log tid r).1 = Except.ok () := by
  obtain ⟨o, w⟩ := r
  cases o <;> rfl

/-- When every callable returns, `rexec` calls all of them in order. -/
theorem rexec_all_return {σ ρ : Type} (fs : List (UserFn σ Unit)) (f : UserFn σ Unit)
    (w : World σ ρ) (h : all_return (f :: fs) w.user) :
    rexec f fs w =
      (Except.ok (),
       { w with user := state_after (f :: fs) w.user,
                events := w.events ++ invocations (f :: fs) }) := by
  induction fs generalizing f w with
  | nil =>
    obtain ⟨h1, _⟩ := h
    simp only [rexec, invoke, state_after, invocations, List.foldl, List.map]
    rw [h1]
  | cons g gs ih =>
    obtain ⟨h1, h2⟩ := h
    have hinv : invoke f w =
        (Except.ok (), { w with user := (f.body w.user).2,
                                events := w.events ++ [Event.invoked f.fn] }) := by
      simp only [invoke]
      rw [h1]
    simp only [rexec]
    rw [hinv]
    simp only
    rw [ih g _ h2]
    simp [state_after, invocations]

/-- When `g` is the first callable that throws, `rexec` calls the callables up to and
including `g`, in order, and leaves with the exception of `g`. -/
theorem rexec_first_throw {σ ρ : Type} (pre : List (UserFn σ Unit)) (g : UserFn σ Unit)
    (post : List (UserFn σ Unit)) (e : Exn) (f : UserFn σ Unit) (fs : List (UserFn σ Unit))
    (w : World σ ρ) (hsplit : f :: fs = pre ++ g :: post) (hpre : all_return pre w.user)
    (hthrow : (g.body (state_after pre w.user)).1 = Except.error e) :
    rexec f fs w =
      (Except.error e,
       { w with user := (g.body (state_after pre w.user)).2,
                events := w.events ++ invocations (pre ++ [g]) }) := by
  induction pre generalizing f fs w with
  | nil =>
    simp only [List.nil_append, List.cons.injEq] at hsplit
    obtain ⟨hf, hfs⟩ := hsplit
    subst hf hfs
    simp only [state_after, List.foldl] at hthrow
    cases fs with
    | nil =>
      simp only [rexec, invoke, state_after, invocations, List.foldl, List.map,
        List.nil_append]
      rw [hthrow]
    | cons a rest =>
      simp only [rexec, invoke, state_after, invocations, List.foldl, List.map,
        List.nil_append]
      rw [hthrow]
  | cons a pre1 ih =>
    simp only [List.cons_append, List.cons.injEq] at hsplit
    obtain ⟨hf, hfs⟩ := hsplit
    subst hf
    obtain ⟨h1, h2⟩ := hpre
    have hinv : invoke f w =
        (Except.ok (), { w with user := (f.body w.user).2,
                                events := w.events ++ [Event.invoked f.fn] }) := by
      simp only [invoke]
      rw [h1]
    cases hne : pre1 ++ g :: post with
    | nil => simp at hne
    | cons b rest =>
      rw [hne] at hfs
      subst hfs
      simp only [rexec]
      rw [hinv]
      simp only
      have hthrow2 : (g.body (state_after pre1 (f.body w.user).2)).1 = Except.error e := by
        simpa [state_after] using hthrow
      rw [ih b rest _ hne.symm h2 hthrow2]
      simp [state_after, invocations]

/-- C7: submit<sequence>(f, fs...) changes nothing but the queue, to which it appends one
closure: the length grows by one and every task already queued keeps its index. Running
that closure on a worker: when every callable returns, the callables f, fs... are invoked
in exactly that order, each once, and nothing else happens; when g is the first callable
to throw, exactly the callables up to and including g are invoked, in order, none after
it, and the closure logs the exception of g and returns normally. -/
theorem C7_sequence {σ ρ : Type} (s : workbranch σ ρ) (f : UserFn σ Unit)
    (fs : List (UserFn σ Unit)) (tid : Nat) (w : World σ ρ) :
    s.submit_sequence f fs = { s with tq := ⟨s.tq.q ++ [sequence_shim f fs]⟩ } ∧
    (s.submit_sequence f fs).num_tasks = s.num_tasks + 1 ∧
    (∀ i, i < s.num_tasks → (s.submit_sequence f fs).tq.q[i]? = s.tq.q[i]?) ∧
    (s.submit_sequence f fs).tq.q[s.num_tasks]? = some (sequence_shim f fs) ∧
    (all_return (f :: fs) w.user →
      sequence_shim f fs tid w =
        (Except.ok (),
         { w with user := state_after (f :: fs) w.user,
                  events := w.events ++ invocations (f :: fs) })) ∧
    (∀ pre g post e, f :: fs = pre ++ g :: post → all_return pre w.user →
      (g.body (state_after pre w.user)).1 = Except.error e →
      sequence_shim f fs tid w =
        (Except.ok (),
         { w with user := (g.body (state_after pre w.user)).2,
                  events := w.events ++ invocations (pre ++ [g]) ++ [cerr_line tid e] })) := by
  refine ⟨rfl, ?_, ?_, ?_, ?_, ?_⟩
  · simp [workbranch.submit_sequence, workbranch.num_tasks, taskqueue.length,
      taskqueue.push_back]
  · intro i hi
    simp only [workbranch.num_tasks, taskqueue.length] at hi
    simp only [workbranch.submit_sequence, taskqueue.push_back]
    exact List.getElem?_append_left hi
  · simp [workbranch.submit_sequence, workbranch.num_tasks, taskqueue.length,
      taskqueue.push_back]
  · intro h
    simp only [sequence_shim]
    rw [rexec_all_return fs f w h]
    rfl
  · intro pre g post e hsplit hpre hthrow
    simp only [sequence_shim]
    rw [rexec_first_throw pre g post e f fs w hsplit hpre hthrow]
    rfl

/-- C7 at concrete callables: the second of three throws, the third is never invoked. -/
theorem C7_sequence_witness :
    sequence_shim (bump 1) [thrower 2 "boom", bump 3] 100 world0 =
      (Except.ok (),
       { world0 with
          user := ((thrower 2 "boom").body (state_after [bump 1] world0.user)).2,
          events := world0.events ++ invocations ([bump 1] ++ [thrower 2 "boom"])
                      ++ [cerr_line 100 (Exn.std_exception "boom")] }) :=
  (C7_sequence ({} : workbranch Nat Nat) (bump 1) [thrower 2 "boom", bump 3] 100 world0).2.2.2.2.2
    [bump 1] (thrower 2 "boom") [bump 3] (Exn.std_exception "boom") rfl ⟨rfl, trivial⟩ rfl

/-- The value shim never lets an exception out. -/
theorem value_shim_ok {σ ρ : Type} (g : UserFn σ ρ) (p tid : Nat) (w : World σ ρ) :
    (value_shim g p tid w).1 = Except.ok () := by
  simp only [value_shim, value_handler]
  split
  · split
    · rfl
    · exact catch_log_ok _ _
  · exact catch_log_ok _ _

/-- C8: whatever the user callables do, the closure queued by each of the five submit
shapes returns normally when called; the worker that calls it goes back to the top of its
loop (it neither returns nor aborts), and the pool members, among them decline and the
worker table, are untouched by the call. -/
theorem C8_shims_never_throw {σ ρ : Type} (f : UserFn σ Unit) (fs : List (UserFn σ Unit))
    (g : UserFn σ ρ) (p tid : Nat) (w w0 : World σ ρ) (s : workbranch σ ρ) :
    ((s.submit_normal_void f).tq.q = s.tq.q ++ [void_shim f] ∧
     (s.submit_urgent_void f).tq.q = void_shim f :: s.tq.q ∧
     (s.submit_sequence f fs).tq.q = s.tq.q ++ [sequence_shim f fs] ∧
     (s.submit_normal_value w0 g).2.1.tq.q = s.tq.q ++ [value_shim g w0.promises.length] ∧
     (s.submit_urgent_value w0 g).2.1.tq.q = value_shim g w0.promises.length :: s.tq.q) ∧
    ((void_shim f tid w).1 = Except.ok () ∧
     (sequence_shim f fs tid w).1 = Except.ok () ∧
     (value_shim g p tid w).1 = Except.ok ()) ∧
    (∀ c : Task σ ρ, c = void_shim f ∨ c = sequence_shim f fs ∨ c = value_shim g p →
      mission_step tid ⟨.running, c⟩ s w = (⟨.loop, c⟩, s, (c tid w).2) ∧
      (s.decline = 0 → ∀ rest, s.tq.q = c :: rest → ∀ k : Worker σ ρ,
        mission_iteration tid k s w = (⟨.loop, c⟩, { s with tq := ⟨rest⟩ }, (c tid w).2))) := by
  have hv : (void_shim f tid w).1 = Except.ok () := catch_log_ok _ _
  have hs : (sequence_shim f fs tid w).1 = Except.ok () := catch_log_ok _ _
  have hg : (value_shim g p tid w).1 = Except.ok () := value_shim_ok g p tid w
  refine ⟨⟨rfl, rfl, rfl, rfl, rfl⟩, ⟨hv, hs, hg⟩, ?_⟩
  intro c hc
  have hok : (c tid w).1 = Except.ok () := by
    rcases hc with h | h | h <;> rw [h] <;> assumption
  have hrun : run_task tid ⟨.running, c⟩ w = (⟨.loop, c⟩, (c tid w).2) := by
    simp only [run_task]
    split
    · next w1 heq => rw [heq]
    · next e w1 heq =>
      rw [heq] at hok
      exact absurd hok (by simp)
  refine ⟨?_, ?_⟩
  · simp only [mission_step]
    rw [hrun]
  · intro hd rest hq k
    rw [mission_iteration_pop tid k s w c rest hd hq, hrun]

/-- C8 at a concrete callable that throws: worker 100 pops the closure and loops on. -/
theorem C8_shims_never_throw_witness :
    (mission_iteration 100 Worker.start
        (({} : workbranch Nat Nat).submit_normal_void (thrower 2 "boom")) world0).1.pc
      = PC.loop :=
  congrArg (fun r => r.1.pc)
    (((C8_shims_never_throw (thrower 2 "boom") [] (reader 9) 0 100 world0 world0
        (({} : workbranch Nat Nat).submit_normal_void (thrower 2 "boom"))).2.2
        (void_shim (thrower 2 "boom")) (Or.inl rfl)).2 rfl [] rfl Worker.start)

/-- Storing into an unset promise succeeds and records the store. -/
theorem promise_store_unset {σ ρ : Type} (p : Nat) (result : Except Exn ρ) (ev : Event)
    (w : World σ ρ) (h : w.promises[p]? = some none) :
    promise_store p result ev w =
      (Except.ok (),
       { w with promises := w.promises.set p (some result), events := w.events ++ [ev] }) := by
  simp only [promise_store]
  rw [h]

/-- C2: the closure queued for a value-returning callable f, run by a worker while the
promise is still unset, calls f once and stores once: when f returns v the promise holds
v, the only events are the invocation of f and one set_value, and get() on the future
yields v; when f throws e the promise holds e, the only events are the invocation of f
and one set_exception, and get() on the future rethrows e. The closure itself returns
normally. Both overloads of submit allocate an unset promise, queue this closure (at the
tail for normal, at the head for urgent) and return the future of that promise. -/
theorem C2_value_shim {σ ρ : Type} (f : UserFn σ ρ) (p tid : Nat) (w : World σ ρ)
    (s : workbranch σ ρ) (h : w.promises[p]? = some none) :
    (∀ v, (f.body w.user).1 = Except.ok v →
      value_shim f p tid w =
        (Except.ok (),
         { user := (f.body w.user).2,
           promises := w.promises.set p (some (Except.ok v)),
           events := w.events ++ [Event.invoked f.fn, Event.set_value p] }) ∧
      future_get p (value_shim f p tid w).2 = some (Except.ok v)) ∧
    (∀ e, (f.body w.user).1 = Except.error e →
      value_shim f p tid w =
        (Except.ok (),
         { user := (f.body w.user).2,
           promises := w.promises.set p (some (Except.error e)),
           events := w.events ++ [Event.invoked f.fn, Event.set_exception p] }) ∧
      future_get p (value_shim f p tid w).2 = some (Except.error e)) ∧
    (s.submit_normal_value w f =
        (w.promises.length,
         { s with tq := ⟨s.tq.q ++ [value_shim f w.promises.length]⟩ },
         { w with promises := w.promises ++ [none] }) ∧
     s.submit_urgent_value w f =
        (w.promises.length,
         { s with tq := ⟨value_shim f w.promises.length :: s.tq.q⟩ },
         { w with promises := w.promises ++ [none] }) ∧
     (w.promises ++ [none])[w.promises.length]? = some none ∧
     future_get w.promises.length (s.submit_normal_value w f).2.2 = none) := by
  have hlt : p < w.promises.length := by
    by_contra hge
    rw [List.getElem?_eq_none (by omega)] at h
    exact absurd h (by simp)
  refine ⟨?_, ?_, rfl, rfl, by simp, ?_⟩
  · intro v hv
    have hinv : invoke f w =
        (Except.ok v, { w with user := (f.body w.user).2,
                               events := w.events ++ [Event.invoked f.fn] }) := by
      simp only [invoke]
      rw [hv]
    have hval : value_shim f p tid w =
        (Except.ok (),
         { user := (f.body w.user).2,
           promises := w.promises.set p (some (Except.ok v)),
           events := w.events ++ [Event.invoked f.fn, Event.set_value p] }) := by
      simp only [value_shim]
      rw [hinv]
      simp only [set_value]
      have hs := promise_store_unset p (Except.ok v) (Event.set_value p)
        { w with user := (f.body w.user).2, events := w.events ++ [Event.invoked f.fn] } h
      rw [hs]
      simp
    refine ⟨hval, ?_⟩
    rw [hval]
    simp [future_get, hlt]
  · intro e he
    have hinv : invoke f w =
        (Except.error e, { w with user := (f.body w.user).2,
                                  events := w.events ++ [Event.invoked f.fn] }) := by
      simp only [invoke]
      rw [he]
    have hval : value_shim f p tid w =
        (Except.ok (),
         { user := (f.body w.user).2,
           promises := w.promises.set p (some (Except.error e)),
           events := w.events ++ [Event.invoked f.fn, Event.set_exception p] }) := by
      simp only [value_shim]
      rw [hinv]
      simp only [value_handler, set_exception]
      have hs := promise_store_unset p (Except.error e) (Event.set_exception p)
        { w with user := (f.body w.user).2, events := w.events ++ [Event.invoked f.fn] } h
      rw [hs]
      simp [catch_log]
    refine ⟨hval, ?_⟩
    rw [hval]
    simp [future_get, hlt]
  · simp [workbranch.submit_normal_value, make_promise, future_get]

/-- C2 at a concrete callable: submit to a fresh pool, then run the queued closure. -/
theorem C2_value_shim_witness :
    value_shim (reader 9) 0 100 (({} : workbranch Nat Nat).submit_normal_value world0 (reader 9)).2.2
      = (Except.ok (),
         { user := 1, promises := [some (Except.ok 0)],
           events := [Event.invoked 9, Event.set_value 0] }) :=
  ((C2_value_shim (reader 9) 0 100
      (({} : workbranch Nat Nat).submit_normal_value world0 (reader 9)).2.2
      ({} : workbranch Nat Nat) rfl).1 0 rfl).1

/-! ## Theorems: `futures<T>` -/

/-- On futures that all hold values the loop of `futures::get` appends the values in
order and leaves every future without shared state. -/
theorem get_loop_values {T : Type} (vs res : List T) :
    futures.get_loop (vs.map (fun v => future.ready (Except.ok v))) res =
      (Except.ok (res ++ vs), List.replicate vs.length future.invalid) := by
  induction vs generalizing res with
  | nil => simp [futures.get_loop]
  | cons v rest ih =>
    simp only [List.map_cons, futures.get_loop, future.get, ih, List.length_cons,
      List.replicate_succ]
    simp

/-- When the first future that does not hold a value comes after the values `vs`, the loop
of `futures::get` leaves with the error of that future and does not touch what follows. -/
theorem get_loop_error {T : Type} (vs res : List T) (bad : future T) (post : List (future T))
    (e : Exn) (h : bad.get.1 = Except.error e) :
    futures.get_loop (vs.map (fun v => future.ready (Except.ok v)) ++ bad :: post) res =
      (Except.error e,
       List.replicate vs.length future.invalid ++ future.invalid :: post) := by
  induction vs generalizing res with
  | nil =>
    cases bad with
    | invalid =>
      simp only [future.get] at h
      simp only [List.map_nil, List.nil_append, futures.get_loop, future.get,
        List.length_nil, List.replicate_zero]
      rw [← Except.error.inj h]
    | ready r =>
      simp only [future.get] at h
      subst h
      simp [futures.get_loop, future.get]
  | cons v rest ih =>
    have hstep : futures.get_loop
        (future.ready (Except.ok v) ::
          (rest.map (fun v => future.ready (Except.ok v)) ++ bad :: post)) res =
        ((futures.get_loop (rest.map (fun v => future.ready (Except.ok v)) ++ bad :: post)
            (res ++ [v])).1,
         future.invalid ::
          (futures.get_loop (rest.map (fun v => future.ready (Except.ok v)) ++ bad :: post)
            (res ++ [v])).2) := rfl
    rw [List.map_cons, List.cons_append, hstep, ih (res ++ [v])]
    rfl

/-- Every deque of futures either holds values only, or splits at its first future that
does not hold a value. -/
theorem futs_split {T : Type} (l : List (future T)) :
    (∃ vs : List T, l = vs.map (fun v => future.ready (Except.ok v))) ∨
    (∃ (vs : List T) (bad : future T) (post : List (future T)) (e : Exn),
      l = vs.map (fun v => future.ready (Except.ok v)) ++ bad :: post ∧
      bad.get.1 = Except.error e) := by
  induction l with
  | nil => exact Or.inl ⟨[], rfl⟩
  | cons a rest ih =>
    cases a with
    | invalid => exact Or.inr ⟨[], future.invalid, rest, no_state, rfl, rfl⟩
    | ready r =>
      cases r with
      | error e => exact Or.inr ⟨[], future.ready (Except.error e), rest, e, rfl, rfl⟩
      | ok v =>
        rcases ih with ⟨vs, hvs⟩ | ⟨vs, bad, post, e, hvs, hbad⟩
        · exact Or.inl ⟨v :: vs, by rw [hvs]; rfl⟩
        · exact Or.inr ⟨v :: vs, bad, post, e, by rw [hvs]; rfl, hbad⟩

/-- C9: add_back appends a future, add_front puts it at index 0. When every stored future
holds a value, get() returns the vector of these values in index order, so its length is
size(); conversely a vector returned by get() has length size() and its i-th element is the
value held by the i-th stored future. Otherwise, with the first future that does not hold a value at index k, get()
fails with exactly the error of that future, after retrieving the futures before it and
without touching the futures after it. Every collection is in one of the two cases. -/
theorem C9_futures_get {T : Type} (fs : futures T) (fut : future T) :
    ((fs.add_back fut).futs = fs.futs ++ [fut] ∧ (fs.add_front fut).futs = fut :: fs.futs ∧
     (fs.add_back fut).size = fs.size + 1 ∧ (fs.add_front fut).size = fs.size + 1) ∧
    (∀ vs : List T, fs.futs = vs.map (fun v => future.ready (Except.ok v)) →
      fs.get = (Except.ok vs, ⟨List.replicate fs.size future.invalid⟩) ∧
      vs.length = fs.size) ∧
    (∀ (vs : List T) (bad : future T) (post : List (future T)) (e : Exn),
      fs.futs = vs.map (fun v => future.ready (Except.ok v)) ++ bad :: post →
      bad.get.1 = Except.error e →
      fs.get = (Except.error e,
                ⟨List.replicate vs.length future.invalid ++ future.invalid :: post⟩)) ∧
    ((∃ vs : List T, fs.futs = vs.map (fun v => future.ready (Except.ok v))) ∨
     (∃ (vs : List T) (bad : future T) (post : List (future T)) (e : Exn),
       fs.futs = vs.map (fun v => future.ready (Except.ok v)) ++ bad :: post ∧
       bad.get.1 = Except.error e)) ∧
    (∀ vs : List T, fs.get.1 = Except.ok vs →
      vs.length = fs.size ∧ fs.futs = vs.map (fun v => future.ready (Except.ok v))) := by
  have hval : ∀ vs : List T, fs.futs = vs.map (fun v => future.ready (Except.ok v)) →
      fs.get = (Except.ok vs, ⟨List.replicate fs.size future.invalid⟩) ∧
      vs.length = fs.size := by
    intro vs h
    have hlen : vs.length = fs.size := by simp [futures.size, h]
    refine ⟨?_, hlen⟩
    simp only [futures.get]
    rw [h, get_loop_values vs [], ← hlen]
    simp
  have herr : ∀ (vs : List T) (bad : future T) (post : List (future T)) (e : Exn),
      fs.futs = vs.map (fun v => future.ready (Except.ok v)) ++ bad :: post →
      bad.get.1 = Except.error e →
      fs.get = (Except.error e,
                ⟨List.replicate vs.length future.invalid ++ future.invalid :: post⟩) := by
    intro vs bad post e h hb
    simp only [futures.get]
    rw [h, get_loop_error vs [] bad post e hb]
  refine ⟨⟨rfl, rfl, ?_, ?_⟩, hval, herr, futs_split fs.futs, ?_⟩
  · simp [futures.add_back, futures.size]
  · simp [futures.add_front, futures.size]
  · intro vs hok
    rcases futs_split fs.futs with ⟨us, hus⟩ | ⟨us, bad, post, e, hus, hbad⟩
    · obtain ⟨hget, hlen⟩ := hval us hus
      rw [hget] at hok
      simp only [Except.ok.injEq] at hok
      rw [← hok]
      exact ⟨hlen, hus⟩
    · rw [herr us bad post e hus hbad] at hok
      exact absurd hok (by simp)

/-- C9 at a concrete collection: a value, then a stored exception, then a value. -/
theorem C9_futures_get_witness :
    (futures.mk [future.ready (Except.ok 1), future.ready (Except.error (Exn.other 7)),
        future.ready (Except.ok (3 : Nat))]).get
      = (Except.error (Exn.other 7),
         ⟨List.replicate [1].length future.invalid ++ future.invalid ::
            [future.ready (Except.ok 3)]⟩) :=
  (C9_futures_get
      (futures.mk [future.ready (Except.ok 1), future.ready (Except.error (Exn.other 7)),
        future.ready (Except.ok (3 : Nat))]) future.invalid).2.2.1
    [1] (future.ready (Except.error (Exn.other 7))) [future.ready (Except.ok 3)]
    (Exn.other 7) rfl rfl

end wsp
